import Mathlib

/-!
Verification of the pytest-kaleido / pytest-variant parsing core.

The embedding models Python strings as lists of characters.  It covers:
the escaped-delimiter splitter `_split_escaped`, the variant tokenizer
with attribute inheritance `_parse_variant_args_to_lists`, the merge
stage `VariantPluginBase.parse_variants_from_list` (a Python dict keyed
by variant name, insertion ordered), and the query helper
`VariantPluginBase.get_variants`.
-/

/-- Python strings are modelled as lists of characters. -/
abbrev Str : Type := List Char

/-- Convert a Lean string literal to the character-list model. -/
def str (s : String) : Str := s.toList

/-- Prepend a character to the first segment of a split result.  This is
the recursive counterpart of appending a character to the mutable buffer
`buf` in the Python loop of `_split_escaped`: the buffer being built is
the first segment of the remaining output. -/
def consHead (c : Char) : List Str → List Str
  | [] => [[c]]
  | p :: ps => (c :: p) :: ps

/-- Embedding of `_split_escaped(s, sep)` (identical in both plugin
files).  Scan left to right: a backslash immediately followed by `sep`
emits `sep` into the current segment and consumes both characters; an
unescaped `sep` ends the current segment; any other character is copied
verbatim; the final segment is always emitted, even if empty.  The
singleton case mirrors the Python bounds check `i + 1 < len(s)`: the
escape branch cannot fire on the last character. -/
def split_escaped (sep : Char) : Str → List Str
  | [] => [[]]
  | [c] => if c = sep then [[], []] else [[c]]
  | c :: c2 :: rest =>
      if c = '\\' ∧ c2 = sep then consHead sep (split_escaped sep rest)
      else if c = sep then [] :: split_escaped sep (c2 :: rest)
      else consHead c (split_escaped sep (c2 :: rest))

/-- Re-escape a segment: every literal occurrence of `sep` is replaced
by a backslash followed by `sep`.  (Used to state the round-trip law.) -/
def escape_sep (sep : Char) : Str → Str
  | [] => []
  | c :: rest =>
      if c = sep then '\\' :: sep :: escape_sep sep rest
      else c :: escape_sep sep rest

/-- Join a list of segments with the separator character. -/
def join_sep (sep : Char) : List Str → Str
  | [] => []
  | [p] => p
  | p :: ps => p ++ sep :: join_sep sep ps

/-- Number of unescaped separator occurrences, following the same scan
as `_split_escaped`. -/
def count_unescaped (sep : Char) : Str → Nat
  | [] => 0
  | [c] => if c = sep then 1 else 0
  | c :: c2 :: rest =>
      if c = '\\' ∧ c2 = sep then count_unescaped sep rest
      else if c = sep then count_unescaped sep (c2 :: rest) + 1
      else count_unescaped sep (c2 :: rest)

theorem consHead_ne_nil (c : Char) (ps : List Str) : consHead c ps ≠ [] := by
  cases ps <;> simp [consHead]

theorem split_escaped_ne_nil (sep : Char) : ∀ s : Str, split_escaped sep s ≠ []
  | [] => by simp [split_escaped]
  | [c] => by
      simp only [split_escaped]
      split <;> simp
  | c :: c2 :: rest => by
      simp only [split_escaped]
      split
      · exact consHead_ne_nil _ _
      · split
        · simp
        · exact consHead_ne_nil _ _

theorem length_consHead (c : Char) (ps : List Str) (h : ps ≠ []) :
    (consHead c ps).length = ps.length := by
  cases ps with
  | nil => exact absurd rfl h
  | cons p t => simp [consHead]

/-- Joining after prepending a character to the first segment prepends
that character to the joined string. -/
theorem join_sep_consHead_cons (sep c : Char) (q : Str) (qs : List Str) :
    join_sep sep ((c :: q) :: qs) = c :: join_sep sep (q :: qs) := by
  cases qs <;> simp [join_sep]

theorem escape_sep_cons_of_ne (sep c : Char) (h : c ≠ sep) (p : Str) :
    escape_sep sep (c :: p) = c :: escape_sep sep p := by
  simp [escape_sep, h]

theorem escape_sep_cons_sep (sep : Char) (p : Str) :
    escape_sep sep (sep :: p) = '\\' :: sep :: escape_sep sep p := by
  simp [escape_sep]

/-- The round-trip law: split, re-escape each segment, join. -/
def round_trip (sep : Char) (s : Str) : Str :=
  join_sep sep ((split_escaped sep s).map (escape_sep sep))

theorem round_trip_eq (sep : Char) : ∀ s : Str, round_trip sep s = s
  | [] => by simp [round_trip, split_escaped, escape_sep, join_sep]
  | [c] => by
      by_cases h : c = sep
      · rw [h]
        simp [round_trip, split_escaped, escape_sep, join_sep]
      · simp [round_trip, split_escaped, escape_sep, join_sep, h]
  | c :: c2 :: rest => by
      by_cases h1 : c = '\\' ∧ c2 = sep
      · have ih := round_trip_eq sep rest
        unfold round_trip at ih ⊢
        rw [h1.1, h1.2]
        rw [show split_escaped sep ('\\' :: sep :: rest) =
              consHead sep (split_escaped sep rest) from by simp [split_escaped]]
        obtain ⟨p, ps, hps⟩ : ∃ p ps, split_escaped sep rest = p :: ps := by
          cases hsp : split_escaped sep rest with
          | nil => exact absurd hsp (split_escaped_ne_nil sep rest)
          | cons p ps => exact ⟨p, ps, rfl⟩
        rw [hps] at ih ⊢
        simp only [consHead, List.map_cons, escape_sep_cons_sep]
        rw [join_sep_consHead_cons, join_sep_consHead_cons]
        simp only [List.map_cons] at ih
        rw [ih]
      · by_cases h2 : c = sep
        · have ih := round_trip_eq sep (c2 :: rest)
          unfold round_trip at ih ⊢
          rw [h2]
          rw [show split_escaped sep (sep :: c2 :: rest) =
                [] :: split_escaped sep (c2 :: rest) from by
            have h1' : ¬(sep = '\\' ∧ c2 = sep) := by
              intro hx
              exact h1 ⟨h2.trans hx.1, hx.2⟩
            simp [split_escaped, h1']]
          obtain ⟨q, qs, hqs⟩ : ∃ q qs, split_escaped sep (c2 :: rest) = q :: qs := by
            cases hsp : split_escaped sep (c2 :: rest) with
            | nil => exact absurd hsp (split_escaped_ne_nil sep (c2 :: rest))
            | cons q qs => exact ⟨q, qs, rfl⟩
          rw [hqs] at ih ⊢
          simp only [List.map_cons]
          rw [show escape_sep sep [] = ([] : Str) from rfl]
          rw [show join_sep sep ([] :: escape_sep sep q :: qs.map (escape_sep sep)) =
                sep :: join_sep sep (escape_sep sep q :: qs.map (escape_sep sep)) from by
            simp [join_sep]]
          simp only [List.map_cons] at ih
          rw [ih]
        · have ih := round_trip_eq sep (c2 :: rest)
          unfold round_trip at ih ⊢
          rw [show split_escaped sep (c :: c2 :: rest) =
                consHead c (split_escaped sep (c2 :: rest)) from by
            simp [split_escaped, h1, h2]]
          obtain ⟨q, qs, hqs⟩ : ∃ q qs, split_escaped sep (c2 :: rest) = q :: qs := by
            cases hsp : split_escaped sep (c2 :: rest) with
            | nil => exact absurd hsp (split_escaped_ne_nil sep (c2 :: rest))
            | cons q qs => exact ⟨q, qs, rfl⟩
          rw [hqs] at ih ⊢
          simp only [consHead, List.map_cons, escape_sep_cons_of_ne sep c h2]
          rw [join_sep_consHead_cons]
          simp only [List.map_cons] at ih
          rw [ih]

/-- The splitter yields exactly one more segment than the number of
unescaped separator occurrences. -/
theorem length_split_escaped (sep : Char) :
    ∀ s : Str, (split_escaped sep s).length = count_unescaped sep s + 1
  | [] => by simp [split_escaped, count_unescaped]
  | [c] => by
      by_cases h : c = sep <;> simp [split_escaped, count_unescaped, h]
  | c :: c2 :: rest => by
      by_cases h1 : c = '\\' ∧ c2 = sep
      · rw [show split_escaped sep (c :: c2 :: rest) =
              consHead sep (split_escaped sep rest) from by simp [split_escaped, h1],
            show count_unescaped sep (c :: c2 :: rest) =
              count_unescaped sep rest from by simp [count_unescaped, h1]]
        rw [length_consHead sep _ (split_escaped_ne_nil sep rest)]
        exact length_split_escaped sep rest
      · by_cases h2 : c = sep
        · rw [h2] at h1 ⊢
          rw [show split_escaped sep (sep :: c2 :: rest) =
                [] :: split_escaped sep (c2 :: rest) from by simp [split_escaped, h1],
              show count_unescaped sep (sep :: c2 :: rest) =
                count_unescaped sep (c2 :: rest) + 1 from by simp [count_unescaped, h1]]
          simp only [List.length_cons, length_split_escaped sep (c2 :: rest)]
        · rw [show split_escaped sep (c :: c2 :: rest) =
                consHead c (split_escaped sep (c2 :: rest)) from by simp [split_escaped, h1, h2],
              show count_unescaped sep (c :: c2 :: rest) =
                count_unescaped sep (c2 :: rest) from by simp [count_unescaped, h1, h2]]
          rw [length_consHead c _ (split_escaped_ne_nil sep (c2 :: rest))]
          exact length_split_escaped sep (c2 :: rest)

/-- Per-segment step of the loop body in `_parse_variant_args_to_lists`
(named `_parse_variants` in the pytest_variant copy).  The state is the
pair `(prev_attrs, ret)` of the two mutable variables of the Python
code; `vstr` is one comma-level segment. -/
def process_segment (st : List Str × List (List Str)) (vstr : Str) :
    List Str × List (List Str) :=
  let attrs0 := (split_escaped ':' vstr).filter (fun a => decide (a ≠ []))
  let attrs := if attrs0.length = 1 ∧ st.1 ≠ [] then st.1 ++ attrs0 else attrs0
  let prev := if attrs.length > 1 then attrs.dropLast else st.1
  let ret := if attrs ≠ [] then st.2 ++ [attrs] else st.2
  (prev, ret)

/-- Body of the outer loop of `_parse_variant_args_to_lists`: process
one input string, starting from an empty inheritance context
(`prev_attrs = []`), appending to the accumulated result `ret`. -/
def process_arg (ret : List (List Str)) (arg : Str) : List (List Str) :=
  ((split_escaped ',' arg).foldl process_segment ([], ret)).2

/-- Embedding of `_parse_variant_args_to_lists(variant_args)`.  The
Python guard `if not variant_args` treats both `None` and the empty
collection as empty input. -/
def parse_variant_args_to_lists : Option (List Str) → List (List Str)
  | Option.none => []
  | Option.some args => if args = [] then [] else args.foldl process_arg []

/-- Sanity check from the spec: attributes and variant names. -/
theorem tokenize_example_multi :
    parse_variant_args_to_lists (some [str "prod:web:v1,mobile:v2"]) =
      [[str "prod", str "web", str "v1"], [str "mobile", str "v2"]] := by decide

/-- Sanity check from the spec: an escaped colon does not split an
attribute name. -/
theorem tokenize_example_escaped_colon :
    parse_variant_args_to_lists (some [str "a\\:b:v"]) =
      [[str "a:b", str "v"]] := by decide

/-- A variant entity: `variant` is the name, `attributes` the stored
attribute list. -/
structure VariantPluginBase where
  variant : Str
  attributes : List Str
deriving DecidableEq

/-- Model of Python `sorted(set(l))`: the sorted duplicate-free list of the
elements of `l` (lexicographic order on strings). -/
def sorted_set (l : List Str) : List Str :=
  List.insertionSort (· ≤ ·) l.dedup

/-- Embedding of `VariantPluginBase.__init__`: the attributes are stored
as `sorted(set(attributes or []))`. -/
def VariantPluginBase.init (variant : Str) (attributes : List Str) :
    VariantPluginBase :=
  ⟨variant, sorted_set attributes⟩

/-- In-place update of the insertion-ordered Python dict `variant_map`:
`variant_map[variant].update(attributes)` when the key is present,
`variant_map[variant] = set(attributes)` when it is absent.  The
accumulating Python set is modelled as the list of elements added so
far; `sorted_set` collapses duplicates when the entity is built. -/
def update_variant_map (m : List (Str × List Str)) (variant : Str)
    (attributes : List Str) : List (Str × List Str) :=
  match m with
  | [] => [(variant, attributes)]
  | (k, v) :: rest =>
      if k = variant then (k, v ++ attributes) :: rest
      else (k, v) :: update_variant_map rest variant attributes

/-- Fold body of `parse_variants_from_list`: `if not attrs: continue`,
then `*attributes, variant = attrs`. -/
def merge_step (m : List (Str × List Str)) (attrs : List Str) :
    List (Str × List Str) :=
  match attrs with
  | [] => m
  | a :: rest =>
      update_variant_map m ((a :: rest).getLast (List.cons_ne_nil a rest))
        (a :: rest).dropLast

/-- The `variant_map` built by `parse_variants_from_list`. -/
def build_variant_map (attr_lists : List (List Str)) : List (Str × List Str) :=
  attr_lists.foldl merge_step []

/-- Embedding of `VariantPluginBase.parse_variants_from_list`: build the
name-keyed map, then emit one entity per name in insertion order with
`attributes=sorted(attributes)` (re-sorted and deduplicated by
`__init__`). -/
def VariantPluginBase.parse_variants_from_list
    (attr_lists : List (List Str)) : List VariantPluginBase :=
  (build_variant_map attr_lists).map fun kv => VariantPluginBase.init kv.1 kv.2

/-- Embedding of `VariantPluginBase.parse_variants`: tokenizer followed
by the merge stage. -/
def VariantPluginBase.parse_variants (variant_args : Option (List Str)) :
    List VariantPluginBase :=
  VariantPluginBase.parse_variants_from_list
    (parse_variant_args_to_lists variant_args)

/-- The `attributes` argument of `get_variants`: `None`, a single
string, or a list of strings. -/
inductive AttrArg where
  | nullArg : AttrArg
  | strArg : Str → AttrArg
  | listArg : List Str → AttrArg

/-- The normalisation at the top of `get_variants` (pytest_kaleido). -/
def AttrArg.toAttrList : AttrArg → Option (List Str)
  | AttrArg.nullArg => Option.none
  | AttrArg.strArg s => Option.some [s]
  | AttrArg.listArg l => Option.some l

/-- Embedding of `VariantPluginBase.get_variants` (pytest_kaleido):
normalise the argument; if it is `None` or empty keep the objects with
no attributes, otherwise keep the objects sharing at least one attribute
with the request; finally sort by variant name. -/
def VariantPluginBase.get_variants (variant_objs : List VariantPluginBase)
    (attributes : AttrArg) : List VariantPluginBase :=
  let attr_list := attributes.toAttrList
  let filtered :=
    match attr_list with
    | Option.none => variant_objs.filter fun o => decide (o.attributes = [])
    | Option.some al =>
        if al = [] then variant_objs.filter fun o => decide (o.attributes = [])
        else variant_objs.filter fun o => al.any fun a => decide (a ∈ o.attributes)
  List.insertionSort (fun x y => x.variant ≤ y.variant) filtered

/-- Lookup of the accumulated attribute elements of a name in the
modelled `variant_map` (empty when the name is absent). -/
def lookup_attrs (m : List (Str × List Str)) (k : Str) : List Str :=
  match m with
  | [] => []
  | (k', v) :: rest => if k' = k then v else lookup_attrs rest k

theorem lookup_attrs_update (m : List (Str × List Str)) (n : Str)
    (attrs : List Str) (k : Str) :
    lookup_attrs (update_variant_map m n attrs) k =
      if k = n then lookup_attrs m k ++ attrs else lookup_attrs m k := by
  induction m with
  | nil =>
      by_cases h : k = n
      · simp [update_variant_map, lookup_attrs, h]
      · have hnk : ¬n = k := fun hx => h hx.symm
        simp [update_variant_map, lookup_attrs, h, hnk]
  | cons kv rest ih =>
      obtain ⟨k', v⟩ := kv
      by_cases hk' : k' = n
      · by_cases hkk : k' = k
        · have hkn : k = n := hkk.symm.trans hk'
          simp [update_variant_map, lookup_attrs, hk', hkk, hkn]
        · have hkn : ¬k = n := fun h => hkk (hk'.trans h.symm)
          have hnk : ¬n = k := fun h => hkn h.symm
          simp [update_variant_map, lookup_attrs, hk', hkk, hkn, hnk]
      · by_cases hkk : k' = k
        · have hkn : ¬k = n := fun h => hk' (hkk.trans h)
          simp [update_variant_map, lookup_attrs, hk', hkk, hkn]
        · simp [update_variant_map, lookup_attrs, hk', hkk, ih]

theorem keys_update_variant_map (m : List (Str × List Str)) (n : Str)
    (attrs : List Str) :
    (update_variant_map m n attrs).map Prod.fst =
      if n ∈ m.map Prod.fst then m.map Prod.fst
      else m.map Prod.fst ++ [n] := by
  induction m with
  | nil => simp [update_variant_map]
  | cons kv rest ih =>
      obtain ⟨k', v⟩ := kv
      by_cases hk' : k' = n
      · simp [update_variant_map, hk']
      · have hnk' : ¬n = k' := fun h => hk' h.symm
        by_cases hn : n ∈ rest.map Prod.fst
        · simp [update_variant_map, hk', ih, hn, hnk']
        · simp [update_variant_map, hk', ih, hn, hnk']

theorem nodup_keys_update (m : List (Str × List Str)) (n : Str)
    (attrs : List Str) (h : (m.map Prod.fst).Nodup) :
    ((update_variant_map m n attrs).map Prod.fst).Nodup := by
  rw [keys_update_variant_map]
  by_cases hn : n ∈ m.map Prod.fst
  · simpa [hn]
  · simp only [hn, if_false]
    simp [List.nodup_append, h, hn]

theorem mem_keys_update (m : List (Str × List Str)) (n : Str)
    (attrs : List Str) (k : Str) :
    k ∈ (update_variant_map m n attrs).map Prod.fst ↔
      k ∈ m.map Prod.fst ∨ k = n := by
  rw [keys_update_variant_map]
  by_cases hn : n ∈ m.map Prod.fst
  · simp only [hn, if_true]
    constructor
    · exact Or.inl
    · rintro (h | rfl)
      · exact h
      · exact hn
  · simp [hn]

/-- Folding the merge step only appends to the lookup of each name: the
accumulated elements for `k` are exactly the attribute prefixes of the
lists whose last element is `k`, in order. -/
theorem lookup_attrs_foldl (L : List (List Str)) :
    ∀ (m : List (Str × List Str)) (k : Str),
      lookup_attrs (L.foldl merge_step m) k =
        lookup_attrs m k ++
          ((L.filter fun l => decide (l.getLast? = some k)).map
            List.dropLast).flatten := by
  induction L with
  | nil => simp
  | cons l L ih =>
      intro m k
      cases l with
      | nil =>
          simp only [List.foldl_cons, merge_step]
          rw [ih]
          simp [List.filter_cons]
      | cons a rest =>
          simp only [List.foldl_cons, merge_step]
          rw [ih]
          rw [lookup_attrs_update]
          have hlast : (a :: rest).getLast? =
              some ((a :: rest).getLast (List.cons_ne_nil a rest)) := by
            rw [List.getLast?_eq_getLast]
          by_cases hk : k = (a :: rest).getLast (List.cons_ne_nil a rest)
          · have : (a :: rest).getLast? = some k := by rw [hlast, hk]
            simp only [if_pos hk, List.filter_cons, this]
            simp [List.append_assoc]
          · have : ¬((a :: rest).getLast? = some k) := by
              rw [hlast]
              simp only [Option.some_inj]
              exact fun h => hk h.symm
            simp only [if_neg hk, List.filter_cons, this]
            simp

theorem nodup_keys_foldl (L : List (List Str)) :
    ∀ m : List (Str × List Str), (m.map Prod.fst).Nodup →
      ((L.foldl merge_step m).map Prod.fst).Nodup := by
  induction L with
  | nil => intro m h; simpa
  | cons l L ih =>
      intro m h
      refine ih _ ?_
      cases l with
      | nil => simpa [merge_step]
      | cons a rest => exact nodup_keys_update _ _ _ h

theorem mem_keys_foldl (L : List (List Str)) :
    ∀ (m : List (Str × List Str)) (k : Str),
      k ∈ (L.foldl merge_step m).map Prod.fst ↔
        k ∈ m.map Prod.fst ∨ ∃ l ∈ L, l.getLast? = some k := by
  induction L with
  | nil => simp
  | cons l L ih =>
      intro m k
      simp only [List.foldl_cons]
      rw [ih]
      cases l with
      | nil => simp [merge_step]
      | cons a rest =>
          simp only [merge_step]
          rw [mem_keys_update]
          have hlast : (a :: rest).getLast? =
              some ((a :: rest).getLast (List.cons_ne_nil a rest)) :=
            List.getLast?_eq_getLast _ _
          have hiff : (a :: rest).getLast? = some k ↔
              k = (a :: rest).getLast (List.cons_ne_nil a rest) := by
            rw [hlast]
            exact ⟨fun h => (Option.some_inj.mp h).symm, fun h => by rw [h]⟩
          constructor
          · rintro ((hm | hk) | ⟨l, hl, hP⟩)
            · exact Or.inl hm
            · exact Or.inr ⟨a :: rest, List.mem_cons_self _ _, hiff.mpr hk⟩
            · exact Or.inr ⟨l, List.mem_cons_of_mem _ hl, hP⟩
          · rintro (hm | ⟨l, hl, hP⟩)
            · exact Or.inl (Or.inl hm)
            · rcases List.mem_cons.mp hl with rfl | hl'
              · exact Or.inl (Or.inr (hiff.mp hP))
              · exact Or.inr ⟨l, hl', hP⟩

theorem lookup_attrs_of_mem (k : Str) (v : List Str) :
    ∀ m : List (Str × List Str), (m.map Prod.fst).Nodup →
      (k, v) ∈ m → lookup_attrs m k = v := by
  intro m
  induction m with
  | nil => intro _ hmem; simp at hmem
  | cons kv rest ih =>
      intro h hmem
      obtain ⟨k', v'⟩ := kv
      simp only [List.map_cons, List.nodup_cons] at h
      rcases List.mem_cons.mp hmem with heq | hmem'
      · injection heq with h1 h2
        rw [← h1, ← h2]
        simp [lookup_attrs]
      · have hkmem : k ∈ rest.map Prod.fst :=
          List.mem_map.mpr ⟨(k, v), hmem', rfl⟩
        have hne : ¬k' = k := fun hh => h.1 (hh ▸ hkmem)
        simp [lookup_attrs, hne, ih h.2 hmem']

theorem mem_sorted_set (l : List Str) (a : Str) : a ∈ sorted_set l ↔ a ∈ l := by
  simp [sorted_set]

theorem sorted_set_sorted (l : List Str) : (sorted_set l).Sorted (· ≤ ·) :=
  List.sorted_insertionSort _ _

theorem sorted_set_nodup (l : List Str) : (sorted_set l).Nodup :=
  (List.perm_insertionSort _ _).nodup_iff.mpr (List.nodup_dedup l)

/-- Two sorted duplicate-free lists with the same members are equal, so
`sorted_set` only depends on membership. -/
theorem sorted_set_eq_of_mem_iff {l1 l2 : List Str}
    (h : ∀ a, a ∈ l1 ↔ a ∈ l2) : sorted_set l1 = sorted_set l2 := by
  apply List.eq_of_perm_of_sorted ?_ (sorted_set_sorted l1) (sorted_set_sorted l2)
  rw [List.perm_ext_iff_of_nodup (sorted_set_nodup l1) (sorted_set_nodup l2)]
  intro a
  rw [mem_sorted_set, mem_sorted_set]
  exact h a

/-- The segment step changes the result list only by appending, and the
new inheritance context does not depend on the accumulated result. -/
theorem process_segment_split (st : List Str × List (List Str)) (s : Str) :
    process_segment st s =
      ((process_segment (st.1, []) s).1,
       st.2 ++ (process_segment (st.1, []) s).2) := by
  obtain ⟨prev, ret⟩ := st
  simp only [process_segment]
  split_ifs <;> simp

theorem foldl_process_segment_split (segs : List Str) :
    ∀ (prev : List Str) (ret : List (List Str)),
      segs.foldl process_segment (prev, ret) =
        ((segs.foldl process_segment (prev, [])).1,
         ret ++ (segs.foldl process_segment (prev, [])).2) := by
  induction segs with
  | nil => intro prev ret; simp
  | cons s segs ih =>
      intro prev ret
      simp only [List.foldl_cons]
      rw [process_segment_split (prev, ret) s]
      dsimp only
      rw [ih (process_segment (prev, []) s).1
            (ret ++ (process_segment (prev, []) s).2)]
      conv_rhs => rw [← @Prod.mk.eta _ _ (process_segment (prev, []) s)]
      rw [ih (process_segment (prev, []) s).1 (process_segment (prev, []) s).2]
      simp [List.append_assoc]

/-- Processing one argument string appends its own parse (started from
an empty inheritance context) to the accumulated result. -/
theorem process_arg_append (ret : List (List Str)) (arg : Str) :
    process_arg ret arg = ret ++ process_arg [] arg := by
  simp only [process_arg]
  rw [foldl_process_segment_split (split_escaped ',' arg) [] ret]

theorem foldl_process_arg (args : List Str) :
    ∀ acc : List (List Str),
      args.foldl process_arg acc = acc ++ (args.map (process_arg [])).flatten := by
  induction args with
  | nil => intro acc; simp
  | cons arg args ih =>
      intro acc
      simp only [List.foldl_cons, List.map_cons, List.flatten_cons]
      rw [process_arg_append acc arg, ih (acc ++ process_arg [] arg)]
      simp [List.append_assoc]

/-- Claim C4: for every string and every single-character separator,
splitting, re-escaping every literal separator occurrence in each
segment, and rejoining with the separator reproduces the input exactly —
including when the input ends in a lone backslash. -/
theorem claim_C4_round_trip (sep : Char) (s : Str) :
    join_sep sep ((split_escaped sep s).map (escape_sep sep)) = s := by
  have h := round_trip_eq sep s
  simpa [round_trip] using h

/-- Claim C5: a backslash immediately followed by the separator emits
the separator literally into the current segment, consumes both
characters, and is not a segment boundary; an input with `k` unescaped
separators yields exactly `k + 1` segments; and
`split("a\,b,c", ",") = ["a,b", "c"]`. -/
theorem claim_C5_escape_and_count :
    (∀ (sep : Char) (s : Str),
        (split_escaped sep s).length = count_unescaped sep s + 1) ∧
    (∀ (sep : Char) (rest : Str),
        split_escaped sep ('\\' :: sep :: rest) =
          consHead sep (split_escaped sep rest)) ∧
    split_escaped ',' (str "a\\,b,c") = [str "a,b", str "c"] := by
  refine ⟨length_split_escaped, fun sep rest => ?_, by decide⟩
  simp [split_escaped]

/-- Counterexample to claim C6 as stated: when the separator is itself
the backslash character, a backslash at the end of the string is treated
as a separator boundary and is not copied into any output segment. -/
theorem claim_C6_counterexample :
    split_escaped '\\' ['\\'] = [[], []] ∧
    '\\' ∉ (split_escaped '\\' ['\\']).flatten := by decide

/-- Claim C6 (amended): provided the separator is not itself the
backslash character, a backslash at the end of the string, or followed
by a character other than the separator, is copied verbatim into the
current segment. -/
theorem claim_C6_lone_backslash_preserved (sep : Char) (rest : Str)
    (hsep : sep ≠ '\\') (hrest : rest = [] ∨ rest.head? ≠ some sep) :
    split_escaped sep ('\\' :: rest) = consHead '\\' (split_escaped sep rest) := by
  have hbs : ¬('\\' : Char) = sep := fun h => hsep h.symm
  cases rest with
  | nil => simp [split_escaped, consHead, hbs]
  | cons c2 t =>
      have hc2 : ¬c2 = sep := by
        rcases hrest with h | h
        · exact absurd h (List.cons_ne_nil c2 t)
        · simpa using h
      simp [split_escaped, hbs, hc2]

theorem claim_C6_witness :
    split_escaped ',' ['\\'] = consHead '\\' (split_escaped ',' []) :=
  claim_C6_lone_backslash_preserved ',' [] (by decide) (Or.inl rfl)

/-- Claim C1: a comma-level segment whose colon-level tokens (after
dropping empties) form exactly one token, reached with a non-empty
inheritance context, contributes the raw attribute-list formed by
prepending that context (the most recent attribute prefix) to the single
token, and leaves the context unchanged; and
`tokenize(["prod:v1,v2"]) = [["prod","v1"],["prod","v2"]]`. -/
theorem claim_C1_inheritance :
    (∀ (prev : List Str) (ret : List (List Str)) (vstr t : Str),
        prev ≠ [] →
        (split_escaped ':' vstr).filter (fun a => decide (a ≠ [])) = [t] →
        process_segment (prev, ret) vstr = (prev, ret ++ [prev ++ [t]])) ∧
    parse_variant_args_to_lists (some [str "prod:v1,v2"]) =
      [[str "prod", str "v1"], [str "prod", str "v2"]] := by
  refine ⟨fun prev ret vstr t hprev ht => ?_, by decide⟩
  simp only [process_segment, ht]
  have h1 : ([t] : List Str).length = 1 ∧ prev ≠ [] := ⟨rfl, hprev⟩
  rw [if_pos h1]
  have hlen : (prev ++ [t]).length > 1 := by
    have : prev.length > 0 := List.length_pos.mpr hprev
    simp [List.length_append]
    omega
  rw [if_pos hlen]
  have hne : prev ++ [t] ≠ [] := by simp
  rw [if_pos hne]
  simp [List.dropLast_concat]

theorem claim_C1_witness :
    process_segment ([str "prod"], []) (str "v2") =
      ([str "prod"], [[str "prod", str "v2"]]) :=
  claim_C1_inheritance.1 [str "prod"] [] (str "v2") (str "v2")
    (by decide) (by decide)

/-- Claim C7: the inheritance context is reset at the start of each
input string — the tokenizer output is the concatenation of the outputs
of each input string parsed independently from an empty context; and
`tokenize(["prod:v1","test:v2"]) = [["prod","v1"],["test","v2"]]`. -/
theorem claim_C7_inheritance_reset :
    (∀ args : List Str,
        parse_variant_args_to_lists (some args) =
          (args.map (process_arg [])).flatten) ∧
    parse_variant_args_to_lists (some [str "prod:v1", str "test:v2"]) =
      [[str "prod", str "v1"], [str "test", str "v2"]] := by
  refine ⟨fun args => ?_, by decide⟩
  by_cases h : args = []
  · simp [parse_variant_args_to_lists, h]
  · simp only [parse_variant_args_to_lists, if_neg h]
    rw [foldl_process_arg args []]
    simp

/-- Claim C9: an absent (`None`) or empty input collection parses to an
empty list of variants. -/
theorem claim_C9_empty_input :
    VariantPluginBase.parse_variants Option.none = [] ∧
    VariantPluginBase.parse_variants (Option.some []) = [] := by decide

/-- Membership in the accumulated attribute elements of a name: exactly
the attributes contributed by the raw lists whose last element is that
name. -/
theorem mem_lookup_build (L : List (List Str)) (k : Str) (a : Str) :
    a ∈ lookup_attrs (build_variant_map L) k ↔
      ∃ l ∈ L, l.getLast? = some k ∧ a ∈ l.dropLast := by
  rw [build_variant_map, lookup_attrs_foldl L [] k]
  simp only [lookup_attrs, List.nil_append, List.mem_flatten, List.mem_map,
    List.mem_filter, decide_eq_true_iff]
  constructor
  · rintro ⟨s, ⟨l, ⟨hl, hP⟩, rfl⟩, ha⟩
    exact ⟨l, hl, hP, ha⟩
  · rintro ⟨l, hl, hP, ha⟩
    exact ⟨l.dropLast, ⟨l, ⟨hl, hP⟩, rfl⟩, ha⟩

theorem nodup_keys_build (L : List (List Str)) :
    ((build_variant_map L).map Prod.fst).Nodup := by
  rw [build_variant_map]
  exact nodup_keys_foldl L [] (by simp)

theorem parse_names_eq_keys (L : List (List Str)) :
    (VariantPluginBase.parse_variants_from_list L).map VariantPluginBase.variant =
      (build_variant_map L).map Prod.fst := by
  simp only [VariantPluginBase.parse_variants_from_list, List.map_map]
  rfl

/-- Every parsed entity stores the sorted duplicate-free union of the
elements accumulated for its name. -/
theorem parse_attrs_eq (L : List (List Str)) (v : VariantPluginBase)
    (hv : v ∈ VariantPluginBase.parse_variants_from_list L) :
    v.attributes = sorted_set (lookup_attrs (build_variant_map L) v.variant) := by
  obtain ⟨kv, hkv, heq⟩ := List.mem_map.mp hv
  have hpair : (kv.1, kv.2) ∈ build_variant_map L := by simpa using hkv
  have hlook : lookup_attrs (build_variant_map L) kv.1 = kv.2 :=
    lookup_attrs_of_mem kv.1 kv.2 _ (nodup_keys_build L) hpair
  rw [← heq]
  dsimp only [VariantPluginBase.init]
  rw [hlook]

/-- Claim C2: the merge stage yields no two entities with the same name
(attribute sets are unioned instead), and every entity's attribute list
is the sorted duplicate-free union of the attributes contributed for its
name. -/
theorem claim_C2_merge_invariants (L : List (List Str)) :
    ((VariantPluginBase.parse_variants_from_list L).map
        VariantPluginBase.variant).Nodup ∧
    ∀ v ∈ VariantPluginBase.parse_variants_from_list L,
      v.attributes.Sorted (· ≤ ·) ∧ v.attributes.Nodup ∧
      ∀ a : Str, a ∈ v.attributes ↔
        ∃ l ∈ L, l.getLast? = some v.variant ∧ a ∈ l.dropLast := by
  constructor
  · rw [parse_names_eq_keys]
    exact nodup_keys_build L
  · intro v hv
    have hattr := parse_attrs_eq L v hv
    refine ⟨?_, ?_, ?_⟩
    · rw [hattr]; exact sorted_set_sorted _
    · rw [hattr]; exact sorted_set_nodup _
    · intro a
      rw [hattr, mem_sorted_set, mem_lookup_build]

theorem claim_C2_witness :
    ((VariantPluginBase.parse_variants_from_list
        [[str "prod", str "v1"]]).map VariantPluginBase.variant).Nodup ∧
    (VariantPluginBase.mk (str "v1") [str "prod"]).attributes.Sorted (· ≤ ·) :=
  ⟨(claim_C2_merge_invariants [[str "prod", str "v1"]]).1,
   ((claim_C2_merge_invariants [[str "prod", str "v1"]]).2
      (VariantPluginBase.mk (str "v1") [str "prod"]) (by decide)).1⟩

/-- Claim C8: permuting the raw attribute-lists never changes the
attribute set obtained for a name, and parsing
`["prod:v1,v2","test:v1"]` yields exactly `v1 ↦ {prod,test}` and
`v2 ↦ {prod}`. -/
theorem claim_C8_permutation_invariance :
    (∀ L L' : List (List Str), L.Perm L' →
      ∀ v ∈ VariantPluginBase.parse_variants_from_list L,
      ∀ v' ∈ VariantPluginBase.parse_variants_from_list L',
        v.variant = v'.variant → v.attributes = v'.attributes) ∧
    VariantPluginBase.parse_variants (some [str "prod:v1,v2", str "test:v1"]) =
      [VariantPluginBase.mk (str "v1") [str "prod", str "test"],
       VariantPluginBase.mk (str "v2") [str "prod"]] := by
  refine ⟨fun L L' hperm v hv v' hv' hname => ?_, by decide⟩
  rw [parse_attrs_eq L v hv, parse_attrs_eq L' v' hv']
  apply sorted_set_eq_of_mem_iff
  intro a
  rw [mem_lookup_build, mem_lookup_build, hname]
  constructor
  · rintro ⟨l, hl, h⟩
    exact ⟨l, hperm.mem_iff.mp hl, h⟩
  · rintro ⟨l, hl, h⟩
    exact ⟨l, hperm.mem_iff.mpr hl, h⟩

theorem claim_C8_witness :
    (VariantPluginBase.mk (str "v") [str "a", str "b"]).attributes =
      (VariantPluginBase.mk (str "v") [str "a", str "b"]).attributes :=
  claim_C8_permutation_invariance.1
    [[str "a", str "v"], [str "b", str "v"]]
    [[str "b", str "v"], [str "a", str "v"]] (by decide)
    (VariantPluginBase.mk (str "v") [str "a", str "b"]) (by decide)
    (VariantPluginBase.mk (str "v") [str "a", str "b"]) (by decide) rfl

/-- The requested attribute collection of a `get_variants` call: empty
when the argument is absent, the singleton for a single string, the list
itself otherwise. -/
def attr_query : AttrArg → List Str
  | AttrArg.nullArg => []
  | AttrArg.strArg s => [s]
  | AttrArg.listArg l => l

theorem any_contains_eq_decide (al att : List Str) :
    (al.any fun a => decide (a ∈ att)) = decide (∃ a ∈ al, a ∈ att) := by
  induction al with
  | nil => simp
  | cons b bs ih =>
      simp only [List.any_cons, ih]
      by_cases hb : b ∈ att
      · simp [hb]
      · simp [hb]

instance : IsTotal VariantPluginBase fun x y => x.variant ≤ y.variant :=
  ⟨fun a b => le_total a.variant b.variant⟩

instance : IsTrans VariantPluginBase fun x y => x.variant ≤ y.variant :=
  ⟨fun _ _ _ h1 h2 => le_trans h1 h2⟩

/-- Claim C3: `get_variants` returns exactly the variants with an empty
attribute set when the request is absent or empty, and otherwise exactly
the variants sharing at least one attribute with the request (OR, never
AND). -/
theorem claim_C3_select_by_attributes (objs : List VariantPluginBase)
    (attrs : AttrArg) :
    (VariantPluginBase.get_variants objs attrs).Perm
      (objs.filter fun v =>
        if attr_query attrs = [] then decide (v.attributes = [])
        else decide (∃ a ∈ attr_query attrs, a ∈ v.attributes)) := by
  cases attrs with
  | nullArg =>
      simp only [VariantPluginBase.get_variants, AttrArg.toAttrList, attr_query]
      exact List.perm_insertionSort _ _
  | strArg s =>
      have hne : ([s] : List Str) ≠ [] := by simp
      simp only [VariantPluginBase.get_variants, AttrArg.toAttrList, attr_query,
        if_neg hne]
      refine (List.perm_insertionSort _ _).trans ?_
      rw [List.filter_congr fun v _ => ?_]
      exact any_contains_eq_decide [s] v.attributes
  | listArg l =>
      by_cases hl : l = []
      · simp only [VariantPluginBase.get_variants, AttrArg.toAttrList, attr_query,
          if_pos hl]
        exact List.perm_insertionSort _ _
      · simp only [VariantPluginBase.get_variants, AttrArg.toAttrList, attr_query,
          if_neg hl]
        refine (List.perm_insertionSort _ _).trans ?_
        rw [List.filter_congr fun v _ => ?_]
        exact any_contains_eq_decide l v.attributes

/-- Claim C10: the list returned by `get_variants` is sorted in
ascending order of variant name, for every input list and every
attribute query. -/
theorem claim_C10_get_variants_sorted (objs : List VariantPluginBase)
    (attrs : AttrArg) :
    (VariantPluginBase.get_variants objs attrs).Sorted
      fun x y => x.variant ≤ y.variant := by
  simp only [VariantPluginBase.get_variants]
  exact List.sorted_insertionSort _ _
